import Mathlib

/-!
Shallow embedding of the lottery package (`lottery/lottery.go`).

Machine integers are modelled as `Nat` with explicit `% 2 ^ 32` / `% 2 ^ 64`
where the Go code can wrap.  Fallible code (slice indexing that would panic
in Go) returns `Option`.  The `float64` prize percentages are all dyadic
rationals obtained from 50 by repeated exact halving, and every operation the
code performs on them (division by 100, multiplication by a power of two) is
exact in IEEE double precision for pools below `2 ^ 53`, so they are embedded
as `ℚ`.
-/

namespace Lottery

/-- `db.Bet`: a participant together with its cumulative upper bound `Index`. -/
structure Bet where
  PublicKey : String
  Index : Nat
deriving DecidableEq, Repr

/-- `db.Winner`: a drawn winner record. -/
structure Winner where
  PublicKey : String
  Ticket : Nat
  Prizes : Nat
  Expired : Bool
deriving DecidableEq, Repr

/-- One delivered notification: the winner it was aggregated for, the chat it
was sent to, and the prize amount carried by the congratulation message. -/
structure Notification where
  publicKey : String
  chatID : Nat
  amount : Nat
deriving DecidableEq, Repr

/-! ### Prize pool percentages (constants `first` .. `eighth`, `prizes`) -/

def first : ℚ := 50
def second : ℚ := first / 2
def third : ℚ := second / 2
def fourth : ℚ := third / 2
def fifth : ℚ := fourth / 2
def sixth : ℚ := fifth / 2
def seventh : ℚ := sixth / 2
def eighth : ℚ := seventh / 2
def btryFee : ℚ := eighth

def CapacityDivisor : Nat := 5

/-- `var prizes = [8]float64{first, ..., eighth}`. -/
def prizes : List ℚ := [first, second, third, fourth, fifth, sixth, seventh, eighth]

/-- `uint64(math.Round(q))` for the nonnegative values produced by the prize
computation: round half away from zero, i.e. `⌊q + 1/2⌋` for `q ≥ 0`. -/
def roundPrize (q : ℚ) : Nat := (⌊q + 1 / 2⌋).toNat

/-- `(prize / 100) * float64(prizePool)` followed by `uint64(math.Round(...))`. -/
def prizeAmount (prize : ℚ) (prizePool : Nat) : Nat :=
  roundPrize (prize / 100 * (prizePool : ℚ))

/-! ### getWinningTicket -/

/-- The value of the Go conversion `int64(n)` for a `uint64` value `n`:
two's-complement wrap-around into `[-2 ^ 63, 2 ^ 63)`. -/
def int64OfUInt64 (n : Nat) : Int :=
  if n < 2 ^ 63 then (n : Int) else (n : Int) - 2 ^ 64

/-- `getWinningTicket(hash, i, prizePool)`.

`num1 = hash[i]` (the higher-index byte, used as the base) and
`num2 = hash[i-1]` (the exponent).  `big.NewInt(int64(prizePool))` wraps the
pool through `int64`, and `big.Int.Exp` reduces modulo the absolute value of
its modulus (a zero modulus means no reduction; `result.Uint64()` then
truncates modulo `2 ^ 64`).  The final `+ 1` is a `uint64` addition.
Out-of-range indexing, which panics in Go, yields `none`. -/
def getWinningTicket (hash : List Nat) (i : Int) (prizePool : Nat) : Option Nat :=
  if 1 ≤ i then
    match hash.get? i.toNat, hash.get? (i.toNat - 1) with
    | some num1, some num2 =>
        let m := (int64OfUInt64 prizePool).natAbs
        some (((if m = 0 then num1 ^ num2 % 2 ^ 64 else num1 ^ num2 % m) + 1) % 2 ^ 64)
    | _, _ => none
  else none

/-! ### getPublicKey (binary search)

The Go loop keeps `left, right` with `right` possibly reaching `-1`; the
embedding carries `r1 = right + 1` so both cursors stay in `Nat`.  The loop
condition `left <= right` becomes `l < r1`, the update `right = mid - 1`
becomes `r1 = mid`, and `mid = (left + right) / 2` becomes
`(l + (r1 - 1)) / 2` (computed only when `l < r1`, so `r1 - 1` does not
truncate).  The fuel argument strictly exceeds the number of loop iterations;
out-of-bounds access (a Go panic) yields `none`. -/

/-- `mid = (left + right) / 2` with `right` represented as `r1 - 1`. -/
def goMid (l r1 : Nat) : Nat := (l + (r1 - 1)) / 2

def gpkGo (bets : List Bet) (t : Nat) : Nat → Nat → Nat → Option String
  | _, _, 0 => none
  | l, r1, fuel + 1 =>
    if l < r1 then
      match bets.get? (goMid l r1) with
      | none => none
      | some b =>
        if b.Index = t then some b.PublicKey
        else if b.Index < t then gpkGo bets t (goMid l r1 + 1) r1 fuel
        else gpkGo bets t l (goMid l r1) fuel
    else
      (bets.get? l).map Bet.PublicKey

/-- `getPublicKey(bets, winningTicket)`: binary search for the ticket,
falling back to `bets[left]` when no exact `Index` match exists. -/
def getPublicKey (bets : List Bet) (winningTicket : Nat) : Option String :=
  gpkGo bets winningTicket 0 bets.length (bets.length + 1)

/-! ### getWinners -/

/-- The body of the `for _, prize := range prizes` loop of `getWinners`:
one winner per prize tier, with the hash cursor `i` decreasing by 2. -/
def getWinnersLoop (blockHash : List Nat) (prizePool : Nat) (bets : List Bet) :
    List ℚ → Int → Option (List Winner)
  | [], _ => some []
  | prize :: rest, i =>
    match getWinningTicket blockHash i prizePool with
    | none => none
    | some t =>
      match getPublicKey bets t with
      | none => none
      | some pk =>
        match getWinnersLoop blockHash prizePool bets rest (i - 2) with
        | none => none
        | some ws => some (⟨pk, t, prizeAmount prize prizePool, false⟩ :: ws)

/-- `getWinners(blockHash, prizePool, bets)`: empty bet list short-circuits to
no winners, otherwise one winner per entry of `prizes`, starting the byte
cursor at `len(blockHash) - 1`. -/
def getWinners (blockHash : List Nat) (prizePool : Nat) (bets : List Bet) :
    Option (List Winner) :=
  if bets.length = 0 then some []
  else getWinnersLoop blockHash prizePool bets prizes ((blockHash.length : Int) - 1)

/-! ### Scheduler (`Start`, lines 92-136) -/

/-- Outcome of the startup reconciliation of the next-height target. -/
structure StartState where
  nextHeight : Nat
  deleted : Option Nat
  persisted : Option Nat
deriving DecidableEq, Repr

/-- The reconciliation in `Start` (lines 97-110): `blockHeight` is the chain
height `H`, `nextHeight` the persisted target `T`, `D` the configured
block-duration step.  Heights are `uint32`, so the new target wraps
modulo `2 ^ 32`. -/
def startReconcile (blockHeight nextHeight D : Nat) : StartState :=
  if nextHeight = 0 ∨ blockHeight > nextHeight then
    { nextHeight := (blockHeight + D) % 2 ^ 32
      deleted := if nextHeight ≠ 0 ∧ blockHeight > nextHeight then some nextHeight else none
      persisted := some ((blockHeight + D) % 2 ^ 32) }
  else
    { nextHeight := nextHeight, deleted := none, persisted := none }

/-- Outcome of one iteration of the watcher goroutine (lines 114-136). -/
structure WatchResult where
  raffled : Bool
  raffleErrorLogged : Bool
  nextHeight : Nat
  persisted : Option Nat
deriving DecidableEq, Repr

/-- One iteration of the block-watcher loop: a non-matching height is
discarded; a matching height triggers the raffle (whose error, if any, is
only logged) and then unconditionally advances and persists the target.
The iteration produces a state and no error: nothing propagates out. -/
def watcherStep (nextHeight D blockHeight : Nat) (raffleErr : Bool) : WatchResult :=
  if blockHeight ≠ nextHeight then
    { raffled := false, raffleErrorLogged := false, nextHeight := nextHeight, persisted := none }
  else
    { raffled := true
      raffleErrorLogged := raffleErr
      nextHeight := (nextHeight + D) % 2 ^ 32
      persisted := some ((nextHeight + D) % 2 ^ 32) }

/-- `block.Height - (l.blocksDuration * 3)` in `uint32` arithmetic
(line 173): both the multiplication and the subtraction wrap modulo
`2 ^ 32`. -/
def expireThreshold (height D : Nat) : Nat :=
  (height + 2 ^ 32 - (D * 3) % 2 ^ 32) % 2 ^ 32

/-! ### notifyWinners -/

/-- One step of building `winnersMap`: add the prize to an existing entry for
the key, or insert a fresh entry. -/
def addPrize : List (String × Nat) → String → Nat → List (String × Nat)
  | [], pk, p => [(pk, p)]
  | (k, v) :: rest, pk, p =>
    if k = pk then (k, v + p) :: rest else (k, v) :: addPrize rest pk p

/-- The aggregation loop of `notifyWinners`: `winnersMap`, represented as an
association list keyed in first-appearance order (the Go map holds the same
key/value pairs; only its iteration order is unspecified). -/
def aggregatePrizes (winners : List Winner) : List (String × Nat) :=
  winners.foldl (fun acc w => addPrize acc w.PublicKey w.Prizes) []

/-- Total prize amount a participant collects across a winner list. -/
def totalPrizes (winners : List Winner) (pk : String) : Nat :=
  (((winners.filter fun w => decide (w.PublicKey = pk))).map Winner.Prizes).sum

/-- `notifyWinners(winners)`: one message per aggregated entry whose public
key has a registered chat ID; a missing chat ID (`sql.ErrNoRows`) is skipped
silently. `chats` models the `Notifications.GetChatID` lookup. -/
def notifyWinners (winners : List Winner) (chats : String → Option Nat) :
    List Notification :=
  (aggregatePrizes winners).filterMap fun e =>
    (chats e.1).map fun cid => ⟨e.1, cid, e.2⟩

/-! ### raffle -/

/-- The externally visible effects of one `raffle` call. -/
structure RaffleEffects where
  err : Bool
  betsCleared : Bool
  persistedWinners : Option (Nat × List Winner)
  sentBatch : Option (List Winner)
  notificationsSent : List Notification
  prizesExpiredBefore : Option Nat
  notificationsExpired : Bool
deriving DecidableEq, Repr

/-- `raffle(block)` on the happy store path: an empty bet list returns `nil`
immediately with no side effects; otherwise the bets are reset, the winners
computed, persisted and sent on the channel, notifications dispatched, and
prizes older than three cycles expired.  A `getWinners` failure (`none`,
the embedded Go panic) aborts after the bets were already cleared. -/
def raffle (height : Nat) (hash : List Nat) (bets : List Bet) (prizePool : Nat)
    (chats : String → Option Nat) (D : Nat) : RaffleEffects :=
  if bets.length = 0 then
    { err := false, betsCleared := false, persistedWinners := none, sentBatch := none
      notificationsSent := [], prizesExpiredBefore := none, notificationsExpired := false }
  else
    match getWinners hash prizePool bets with
    | none =>
      { err := true, betsCleared := true, persistedWinners := none, sentBatch := none
        notificationsSent := [], prizesExpiredBefore := none, notificationsExpired := false }
    | some ws =>
      { err := false
        betsCleared := true
        persistedWinners := some (height, ws)
        sentBatch := some ws
        notificationsSent := notifyWinners ws chats
        prizesExpiredBefore := some (expireThreshold height D)
        notificationsExpired := true }

/-! ### Concrete data used by the spec's worked example -/

/-- A 32-byte block hash whose tier-1 window holds the bytes 3 and 5
(`hash[31] = 5`, `hash[30] = 3`). -/
def demoHash : List Nat := List.replicate 30 0 ++ [3, 5]

/-- The bet list of the spec's worked example. -/
def demoBets : List Bet := [⟨"A", 50⟩, ⟨"B", 150⟩, ⟨"C", 1000⟩]

/-- Total amount recorded for a public key in an association list, summing
over every matching entry (with distinct keys this is the key's value, or 0
when absent). -/
def entryAmount (l : List (String × Nat)) (pk : String) : Nat :=
  ((l.filter fun e => decide (e.1 = pk)).map Prod.snd).sum

/-- An 8-winner draw in which participant "A" wins tiers 1 and 3. -/
def winners0 : List Winner :=
  [⟨"A", 126, 500, false⟩, ⟨"B", 2, 250, false⟩, ⟨"A", 2, 125, false⟩,
   ⟨"B", 2, 63, false⟩, ⟨"B", 2, 31, false⟩, ⟨"B", 2, 16, false⟩,
   ⟨"B", 2, 8, false⟩, ⟨"B", 2, 4, false⟩]

/-- A chat lookup in which only participant "A" opted in. -/
def chats0 : String → Option Nat := fun pk => if pk = "A" then some 7 else none

end Lottery

namespace Lottery

/-! ### Claim theorems: scheduler, watcher, tiers, expiry -/

/-- C9: the 8 prize-tier percentages are the fixed geometric sequence
50, 25, 12.5, 6.25, 3.125, 1.5625, 0.78125, 0.390625 (each tier half the
previous one), and they sum to exactly 99.609375 percent.  All values are
dyadic rationals, exactly representable in `float64`, with every halving
exact, so `ℚ` models the Go constants exactly. -/
theorem claim_C9_prize_tiers :
    prizes = [50, 25, 12.5, 6.25, 3.125, 1.5625, 0.78125, 0.390625] ∧
    first = 50 ∧ second = first / 2 ∧ third = second / 2 ∧ fourth = third / 2 ∧
    fifth = fourth / 2 ∧ sixth = fifth / 2 ∧ seventh = sixth / 2 ∧
    eighth = seventh / 2 ∧
    prizes.sum = 99.609375 := by
  refine ⟨?_, rfl, rfl, rfl, rfl, rfl, rfl, rfl, rfl, ?_⟩ <;>
    norm_num [prizes, first, second, third, fourth, fifth, sixth, seventh, eighth]

/-- C4: on startup with chain height `H`, persisted target `T` and step `D`:
an unset target (`T = 0`) persists `H + D`; a missed target (`H > T`)
deletes the stale `T` and persists `H + D`; otherwise `T` is kept and
nothing is deleted or persisted.  In particular `T = 100, D = 50, H = 100`
keeps the target at 100, while `H = 151` deletes target 100 and persists
201.  Heights are `uint32`, so the persisted sum wraps modulo `2 ^ 32`. -/
theorem claim_C4_start_reconciliation (H T D : Nat) :
    (T = 0 → startReconcile H T D =
      ⟨(H + D) % 2 ^ 32, none, some ((H + D) % 2 ^ 32)⟩) ∧
    (T ≠ 0 → H > T → startReconcile H T D =
      ⟨(H + D) % 2 ^ 32, some T, some ((H + D) % 2 ^ 32)⟩) ∧
    (T ≠ 0 → H ≤ T → startReconcile H T D = ⟨T, none, none⟩) ∧
    startReconcile 100 100 50 = ⟨100, none, none⟩ ∧
    startReconcile 151 100 50 = ⟨201, some 100, some 201⟩ := by
  refine ⟨?_, ?_, ?_, by decide, by decide⟩
  · intro h0
    unfold startReconcile
    rw [if_pos (Or.inl h0), if_neg]
    simp [h0]
  · intro h0 hgt
    unfold startReconcile
    rw [if_pos (Or.inr hgt), if_pos ⟨h0, hgt⟩]
  · intro h0 hle
    unfold startReconcile
    rw [if_neg]
    rintro (h | h)
    · exact h0 h
    · omega

/-- Witness for C4 at the spec's two concrete scenarios. -/
theorem claim_C4_start_reconciliation_witness :
    startReconcile 151 100 50 = ⟨201, some 100, some 201⟩ ∧
    startReconcile 100 100 50 = ⟨100, none, none⟩ :=
  ⟨(claim_C4_start_reconciliation 151 100 50).2.1 (by decide) (by decide),
   (claim_C4_start_reconciliation 100 100 50).2.2.1 (by decide) (by decide)⟩

/-- C5: at a matched target height the watcher runs the raffle, and whether
the raffle fails (`err = true`, only logged) or succeeds, it advances the
target by `D` (as `uint32`) and persists the new target.  The iteration
returns a state and no error value, so a raffle failure cannot propagate
out of the loop. -/
theorem claim_C5_target_advances (T D : Nat) (err : Bool) :
    watcherStep T D T err =
      { raffled := true, raffleErrorLogged := err,
        nextHeight := (T + D) % 2 ^ 32, persisted := some ((T + D) % 2 ^ 32) } := by
  unfold watcherStep
  rw [if_neg (by simp)]

/-- C10: the expiry threshold handed to `ExpirePrizes` is
`block.Height - blocksDuration * 3` in `uint32` arithmetic, so whenever the
triggering height is below `3 * D` the subtraction wraps modulo `2 ^ 32` and
the threshold exceeds the current height instead of lying three cycles in
the past; a successful non-empty raffle passes exactly this value. -/
theorem claim_C10_expiry_wraparound (H D : Nat) (hH : H < 2 ^ 32)
    (h3 : D * 3 < 2 ^ 32) (hlt : H < D * 3) :
    expireThreshold H D = H + 2 ^ 32 - D * 3 ∧
    H < expireThreshold H D ∧
    (∀ hash bets P chats, bets ≠ [] →
      (raffle H hash bets P chats D).err = false →
      (raffle H hash bets P chats D).prizesExpiredBefore =
        some (expireThreshold H D)) := by
  have h32 : (2 : Nat) ^ 32 = 4294967296 := by norm_num
  have hmod : (D * 3) % 2 ^ 32 = D * 3 := Nat.mod_eq_of_lt h3
  have hval : expireThreshold H D = H + 2 ^ 32 - D * 3 := by
    unfold expireThreshold
    rw [hmod]
    exact Nat.mod_eq_of_lt (by omega)
  refine ⟨hval, by omega, ?_⟩
  intro hash bets P chats hne herr
  have hlen : ¬ (bets.length = 0) := by
    simpa [List.length_eq_zero] using hne
  unfold raffle at herr ⊢
  rw [if_neg hlen] at herr ⊢
  rcases hgw : getWinners hash P bets with _ | ws
  · rw [hgw] at herr
    simp at herr
  · rfl

/-- Witness for C10 at `H = 100`, `D = 50`: the threshold is
`100 + 2 ^ 32 - 150`, far above the height 100. -/
theorem claim_C10_expiry_wraparound_witness :
    expireThreshold 100 50 = 100 + 2 ^ 32 - 50 * 3 ∧ 100 < expireThreshold 100 50 :=
  ⟨(claim_C10_expiry_wraparound 100 50 (by norm_num) (by norm_num) (by norm_num)).1,
   (claim_C10_expiry_wraparound 100 50 (by norm_num) (by norm_num) (by norm_num)).2.1⟩

/-! ### Binary search correctness -/

/-- Unfolding equation for one step of the `getPublicKey` loop. -/
theorem gpkGo_succ_eq (bets : List Bet) (t l r1 fuel : Nat) :
    gpkGo bets t l r1 (fuel + 1) =
      if l < r1 then
        match bets.get? (goMid l r1) with
        | none => none
        | some b =>
          if b.Index = t then some b.PublicKey
          else if b.Index < t then gpkGo bets t (goMid l r1 + 1) r1 fuel
          else gpkGo bets t l (goMid l r1) fuel
      else (bets.get? l).map Bet.PublicKey := rfl

/-- Loop invariant of the binary search: with strictly increasing indices,
cursors `l ≤ r1 ≤ length`, everything left of `l` strictly below the ticket,
everything from `r1` on at or above it, and some element at or above it, the
loop lands on the first bet whose `Index` is `≥ t` — in particular inside
the list, so the final `bets[left]` access cannot fall out of bounds. -/
theorem gpkGo_spec (bets : List Bet) (t : Nat)
    (hs : bets.Pairwise fun a b => a.Index < b.Index) :
    ∀ fuel l r1 : Nat, l ≤ r1 → r1 ≤ bets.length → r1 - l < fuel →
    (∀ j (hj : j < bets.length), j < l → (bets.get ⟨j, hj⟩).Index < t) →
    (∀ j (hj : j < bets.length), r1 ≤ j → t ≤ (bets.get ⟨j, hj⟩).Index) →
    (∃ j, ∃ hj : j < bets.length, t ≤ (bets.get ⟨j, hj⟩).Index) →
    ∃ k, ∃ hk : k < bets.length,
      (∀ j (hj : j < bets.length), j < k → (bets.get ⟨j, hj⟩).Index < t) ∧
      t ≤ (bets.get ⟨k, hk⟩).Index ∧
      gpkGo bets t l r1 fuel = some ((bets.get ⟨k, hk⟩).PublicKey) := by
  have hpw := List.pairwise_iff_get.mp hs
  intro fuel
  induction fuel with
  | zero =>
    intro l r1 h1 h2 h3 _ _ _
    omega
  | succ fuel ih =>
    intro l r1 hlr hr1 hfuel hleft hright hex
    by_cases hcond : l < r1
    · have hmid1 : l ≤ goMid l r1 := by unfold goMid; omega
      have hmid2 : goMid l r1 < r1 := by unfold goMid; omega
      have hmlt : goMid l r1 < bets.length := by omega
      have hget : bets.get? (goMid l r1) = some (bets.get ⟨goMid l r1, hmlt⟩) :=
        List.get?_eq_get hmlt
      rcases lt_trichotomy (bets.get ⟨goMid l r1, hmlt⟩).Index t with hbt | hbt | hbt
      · have hleft2 : ∀ j (hj : j < bets.length), j < goMid l r1 + 1 →
            (bets.get ⟨j, hj⟩).Index < t := by
          intro j hj hjlt
          rcases Nat.lt_or_ge j (goMid l r1) with hlt2 | hge
          · exact lt_trans (hpw ⟨j, hj⟩ ⟨goMid l r1, hmlt⟩ hlt2) hbt
          · have hje : j = goMid l r1 := by omega
            subst hje
            exact hbt
        obtain ⟨k, hk, ha, hb, hc⟩ :=
          ih (goMid l r1 + 1) r1 (by omega) hr1 (by omega) hleft2 hright hex
        refine ⟨k, hk, ha, hb, ?_⟩
        rw [gpkGo_succ_eq, if_pos hcond, hget]
        dsimp only
        rw [if_neg (by omega), if_pos hbt]
        exact hc
      · refine ⟨goMid l r1, hmlt, ?_, le_of_eq hbt.symm, ?_⟩
        · intro j hj hjlt
          exact lt_of_lt_of_le (hpw ⟨j, hj⟩ ⟨goMid l r1, hmlt⟩ hjlt) (le_of_eq hbt)
        · rw [gpkGo_succ_eq, if_pos hcond, hget]
          dsimp only
          rw [if_pos hbt]
      · have hright2 : ∀ j (hj : j < bets.length), goMid l r1 ≤ j →
            t ≤ (bets.get ⟨j, hj⟩).Index := by
          intro j hj hje
          rcases Nat.eq_or_lt_of_le hje with hje2 | hje2
          · have heq : bets.get ⟨j, hj⟩ = bets.get ⟨goMid l r1, hmlt⟩ := by
              congr 1
              exact Fin.mk_eq_mk.mpr hje2.symm
            rw [heq]
            omega
          · exact le_of_lt (lt_trans hbt (hpw ⟨goMid l r1, hmlt⟩ ⟨j, hj⟩ hje2))
        obtain ⟨k, hk, ha, hb, hc⟩ :=
          ih l (goMid l r1) (by omega) (by omega) (by omega) hleft hright2 hex
        refine ⟨k, hk, ha, hb, ?_⟩
        rw [gpkGo_succ_eq, if_pos hcond, hget]
        dsimp only
        rw [if_neg (by omega), if_neg (by omega)]
        exact hc
    · have hle : l = r1 := by omega
      obtain ⟨j, hj, hjt⟩ := hex
      have hlj : l ≤ j := by
        by_contra hcon
        have := hleft j hj (by omega)
        omega
      have hllen : l < bets.length := by omega
      refine ⟨l, hllen, ?_, hright l hllen (by omega), ?_⟩
      · intro j2 hj2 hj2l
        exact hleft j2 hj2 hj2l
      · rw [gpkGo_succ_eq, if_neg hcond, List.get?_eq_get hllen]
        rfl

/-- `List.find?` returns the element at the first position whose predicate
holds, provided every earlier position fails it. -/
theorem find?_eq_get_of_first {α : Type} (p : α → Bool) (l : List α) :
    ∀ (k : Nat) (hk : k < l.length),
    (∀ j (hj : j < l.length), j < k → p (l.get ⟨j, hj⟩) = false) →
    p (l.get ⟨k, hk⟩) = true →
    l.find? p = some (l.get ⟨k, hk⟩) := by
  induction l with
  | nil =>
    intro k hk
    simp at hk
  | cons a tl ih =>
    intro k hk hbefore hp
    cases k with
    | zero =>
      have ha : p a = true := hp
      simp [List.find?, ha]
    | succ k =>
      have ha : p a = false := hbefore 0 (by simp) (by omega)
      simp only [List.find?, ha]
      exact ih k (by simpa using hk)
        (fun j hj hjk => hbefore (j + 1) (by simpa using hj) (by omega)) hp

/-- `getPublicKey` returns the public key of the first bet whose `Index` is
at least the ticket, for any strictly sorted bet list whose last index is at
least the ticket.  A `some` result certifies that neither the probes nor the
final `bets[left]` access fall out of bounds. -/
theorem getPublicKey_finds (bets : List Bet) (t P : Nat)
    (hs : bets.Pairwise fun a b => a.Index < b.Index)
    (hne : bets ≠ []) (hlast : (bets.getLast hne).Index = P)
    (htP : t ≤ P) :
    ∃ b, bets.find? (fun x => decide (t ≤ x.Index)) = some b ∧
      getPublicKey bets t = some b.PublicKey := by
  have hlen : 0 < bets.length := List.length_pos.mpr hne
  have hlastget : (bets.get ⟨bets.length - 1, by omega⟩).Index = P := by
    rw [← List.getLast_eq_get]
    exact hlast
  obtain ⟨k, hk, hbef, hkt, hres⟩ :=
    gpkGo_spec bets t hs (bets.length + 1) 0 bets.length (by omega) (le_refl _)
      (by omega)
      (fun j hj hjl => absurd hjl (by omega))
      (fun j hj hjl => absurd hj (by omega))
      ⟨bets.length - 1, by omega, by rw [hlastget]; exact htP⟩
  refine ⟨bets.get ⟨k, hk⟩, ?_, hres⟩
  exact find?_eq_get_of_first _ bets k hk
    (fun j hj hjk => decide_eq_false (by have := hbef j hj hjk; omega))
    (decide_eq_true hkt)

/-- C1: for every bet list sorted strictly ascending by `Index` whose indices
partition `[1, P]` (so the last `Index` equals `P`) and every ticket in
`[1, P]`, the binary search `getPublicKey` returns the public key of the
first bet whose `Index ≥ ticket` — the unique owning bet — and, since the
embedding returns `none` exactly when a Go slice access would panic, the
`some` result shows the final `bets[left]` access stays in bounds. -/
theorem claim_C1_locate_bet (bets : List Bet) (t P : Nat)
    (hs : bets.Pairwise fun a b => a.Index < b.Index)
    (hne : bets ≠ []) (hlast : (bets.getLast hne).Index = P)
    (ht1 : 1 ≤ t) (htP : t ≤ P) :
    ∃ b, bets.find? (fun x => decide (t ≤ x.Index)) = some b ∧
      getPublicKey bets t = some b.PublicKey :=
  getPublicKey_finds bets t P hs hne hlast htP

/-- Witness for C1 on the worked-example bet list with ticket 126: the
located owner is the first bet with `Index ≥ 126`. -/
theorem claim_C1_locate_bet_witness :
    ∃ b, demoBets.find? (fun x => decide (126 ≤ x.Index)) = some b ∧
      getPublicKey demoBets 126 = some b.PublicKey :=
  claim_C1_locate_bet demoBets 126 1000 (by decide) (by decide) (by decide)
    (by decide) (by decide)

/-- Counterexample to C2 as stated: for `P = 2 ^ 64 - 3` (a `uint64` value
above `2 ^ 63`), the conversion `int64(prizePool)` wraps to `-3`, and
`big.Int.Exp` reduces modulo its absolute value 3, not modulo `P`.  With the
higher-index byte 2 as base and 3 as exponent the code returns
`2 ^ 3 % 3 + 1 = 3`, while the claimed formula gives `2 ^ 3 % P + 1 = 9`. -/
theorem claim_C2_counterexample :
    getWinningTicket [3, 2] 1 (2 ^ 64 - 3) = some 3 ∧
    2 ^ 3 % (2 ^ 64 - 3) + 1 = 9 ∧
    getWinningTicket [3, 2] 1 (2 ^ 64 - 3) ≠ some (2 ^ 3 % (2 ^ 64 - 3) + 1) :=
  ⟨by decide, by decide, by decide⟩

/-! ### Winning-ticket arithmetic -/

/-- The modulus actually used by `getWinningTicket` is the absolute value of
`int64(prizePool)`: it equals `P` whenever `P ≤ 2 ^ 63` and `2 ^ 64 - P`
above that, is always in `[1, P]`, and the returned ticket is
`base ^ exponent % m + 1 ∈ [1, P]`. -/
theorem getWinningTicket_spec (hash : List Nat) (i P : Nat)
    (h1 : 1 ≤ i) (hi : i < hash.length) (hP : 1 ≤ P) (hP64 : P < 2 ^ 64) :
    ∃ m : Nat, 1 ≤ m ∧ m ≤ P ∧ (P ≤ 2 ^ 63 → m = P) ∧
      getWinningTicket hash (i : Int) P =
        some ((hash.get ⟨i, hi⟩) ^ (hash.get ⟨i - 1, by omega⟩) % m + 1) ∧
      1 ≤ (hash.get ⟨i, hi⟩) ^ (hash.get ⟨i - 1, by omega⟩) % m + 1 ∧
      (hash.get ⟨i, hi⟩) ^ (hash.get ⟨i - 1, by omega⟩) % m + 1 ≤ P := by
  have hm : (int64OfUInt64 P).natAbs = if P < 2 ^ 63 then P else 2 ^ 64 - P := by
    unfold int64OfUInt64
    by_cases h63 : P < 2 ^ 63
    · rw [if_pos h63, if_pos h63]
      exact Int.natAbs_ofNat P
    · rw [if_neg h63, if_neg h63]
      have hle : (P : Int) ≤ 2 ^ 64 := by exact_mod_cast le_of_lt hP64
      omega
  set m := (int64OfUInt64 P).natAbs with hmdef
  have hm1 : 1 ≤ m := by
    rw [hm]
    split <;> omega
  have hm2 : m ≤ P := by
    rw [hm]
    split <;> omega
  have hm63 : P ≤ 2 ^ 63 → m = P := by
    intro h63
    rw [hm]
    split <;> omega
  have hm0 : ¬ (m = 0) := by omega
  refine ⟨m, hm1, hm2, hm63, ?_, by omega, ?_⟩
  · unfold getWinningTicket
    rw [if_pos (by exact_mod_cast h1)]
    have hti : ((i : Int)).toNat = i := Int.toNat_natCast i
    rw [hti, List.get?_eq_get hi, List.get?_eq_get (by omega : i - 1 < hash.length)]
    dsimp only
    rw [← hmdef, if_neg hm0]
    have hlt : (hash.get ⟨i, hi⟩) ^ (hash.get ⟨i - 1, by omega⟩) % m + 1 < 2 ^ 64 := by
      have := Nat.mod_lt ((hash.get ⟨i, hi⟩) ^ (hash.get ⟨i - 1, by omega⟩))
        (by omega : 0 < m)
      omega
    rw [Nat.mod_eq_of_lt hlt]
  · have := Nat.mod_lt ((hash.get ⟨i, hi⟩) ^ (hash.get ⟨i - 1, by omega⟩))
      (by omega : 0 < m)
    omega

/-- For any in-range `Int` index and pool in `[1, 2 ^ 64)`, `getWinningTicket`
succeeds with a ticket in `[1, P]`. -/
theorem getWinningTicket_some (hash : List Nat) (i : Int) (P : Nat)
    (h1 : 1 ≤ i) (hi : i < (hash.length : Int)) (hP : 1 ≤ P) (hP64 : P < 2 ^ 64) :
    ∃ t, getWinningTicket hash i P = some t ∧ 1 ≤ t ∧ t ≤ P := by
  have hnn : 0 ≤ i := by omega
  have hcast : ((i.toNat : Nat) : Int) = i := Int.toNat_of_nonneg hnn
  obtain ⟨m, _, _, _, heq, hlo, hhi⟩ :=
    getWinningTicket_spec hash i.toNat P (by omega) (by omega) hP hP64
  rw [← hcast]
  exact ⟨_, heq, hlo, hhi⟩

/-- `getWinningTicket` reads only the two bytes at `i` and `i - 1`: hashes
agreeing from byte 16 on give the same ticket at any index `≥ 17`. -/
theorem getWinningTicket_congr (hash1 hash2 : List Nat) (i : Int) (P : Nat)
    (hagree : ∀ j : Nat, 16 ≤ j → hash1.get? j = hash2.get? j) (h17 : 17 ≤ i) :
    getWinningTicket hash1 i P = getWinningTicket hash2 i P := by
  unfold getWinningTicket
  rw [if_pos (by omega), if_pos (by omega)]
  rw [hagree i.toNat (by omega), hagree (i.toNat - 1) (by omega)]

/-- C2 (amended): for bytes at a valid window and any pool `P ∈ [1, 2 ^ 64)`,
the ticket equals `base ^ exponent mod P + 1` whenever `P ≤ 2 ^ 63` (the
range in which `int64(prizePool)` does not wrap), and in every case the
ticket is defined, deterministic, and lies in `[1, P]`. -/
theorem claim_C2_winning_ticket (hash : List Nat) (i P : Nat)
    (h1 : 1 ≤ i) (hi : i < hash.length) (hP : 1 ≤ P) (hP64 : P < 2 ^ 64) :
    (P ≤ 2 ^ 63 → getWinningTicket hash (i : Int) P =
      some ((hash.get ⟨i, hi⟩) ^ (hash.get ⟨i - 1, by omega⟩) % P + 1)) ∧
    (∃ t, getWinningTicket hash (i : Int) P = some t ∧ 1 ≤ t ∧ t ≤ P) := by
  obtain ⟨m, hm1, hm2, hm3, heq, hlo, hhi⟩ := getWinningTicket_spec hash i P h1 hi hP hP64
  refine ⟨fun h63 => ?_, ⟨_, heq, hlo, hhi⟩⟩
  rw [heq, hm3 h63]

/-- Witness for the amended C2 at bytes (2, 3) and `P = 1000`:
the ticket is `2 ^ 3 % 1000 + 1 = 9`. -/
theorem claim_C2_winning_ticket_witness :
    getWinningTicket [3, 2] ((1 : Nat) : Int) 1000 = some 9 ∧
    (∃ t, getWinningTicket [3, 2] ((1 : Nat) : Int) 1000 = some t ∧
      1 ≤ t ∧ t ≤ 1000) := by
  have h := claim_C2_winning_ticket [3, 2] 1 1000 (by decide) (by decide) (by decide)
    (by norm_num)
  refine ⟨?_, h.2⟩
  rw [h.1 (by norm_num)]
  decide

/-! ### The eight winners of a draw -/

/-- The eight prize amounts for a pool of 1000 units. -/
theorem prizeAmounts_1000 :
    prizeAmount first 1000 = 500 ∧ prizeAmount second 1000 = 250 ∧
    prizeAmount third 1000 = 125 ∧ prizeAmount fourth 1000 = 63 ∧
    prizeAmount fifth 1000 = 31 ∧ prizeAmount sixth 1000 = 16 ∧
    prizeAmount seventh 1000 = 8 ∧ prizeAmount eighth 1000 = 4 := by
  refine ⟨?_, ?_, ?_, ?_, ?_, ?_, ?_, ?_⟩ <;>
    · norm_num [prizeAmount, roundPrize, first, second, third, fourth, fifth, sixth,
        seventh, eighth]
      decide

/-- Fully computed draw against `demoHash` with pool 1000, generic in the bet
list: tier 1 draws ticket 126, every other tier draws ticket 2. -/
theorem getWinners_demoHash_1000 (bets : List Bet) (pk1 pk2 : String)
    (hlen : ¬ (bets.length = 0))
    (p126 : getPublicKey bets 126 = some pk1)
    (p2 : getPublicKey bets 2 = some pk2) :
    getWinners demoHash 1000 bets =
      some [⟨pk1, 126, 500, false⟩, ⟨pk2, 2, 250, false⟩, ⟨pk2, 2, 125, false⟩,
        ⟨pk2, 2, 63, false⟩, ⟨pk2, 2, 31, false⟩, ⟨pk2, 2, 16, false⟩,
        ⟨pk2, 2, 8, false⟩, ⟨pk2, 2, 4, false⟩] := by
  obtain ⟨q1, q2, q3, q4, q5, q6, q7, q8⟩ := prizeAmounts_1000
  have e1 : getWinningTicket demoHash 31 1000 = some 126 := by decide
  have e2 : getWinningTicket demoHash 29 1000 = some 2 := by decide
  have e3 : getWinningTicket demoHash 27 1000 = some 2 := by decide
  have e4 : getWinningTicket demoHash 25 1000 = some 2 := by decide
  have e5 : getWinningTicket demoHash 23 1000 = some 2 := by decide
  have e6 : getWinningTicket demoHash 21 1000 = some 2 := by decide
  have e7 : getWinningTicket demoHash 19 1000 = some 2 := by decide
  have e8 : getWinningTicket demoHash 17 1000 = some 2 := by decide
  have hlen31 : ((demoHash.length : Int) - 1) = 31 := by decide
  unfold getWinners
  rw [if_neg hlen]
  simp only [getWinnersLoop, prizes, hlen31]
  norm_num [e1, e2, e3, e4, e5, e6, e7, e8, p126, p2, q1, q2, q3, q4, q5, q6, q7, q8]

/-- C3: with `P = 1000` and the tier-1 window holding bytes 5 (base) and 3
(exponent), the winning ticket is `5 ^ 3 mod 1000 + 1 = 126`, and against
the sorted bets `[("A", 50), ("B", 150), ("C", 1000)]` the tier-1 winner is
participant "B". -/
theorem claim_C3_worked_example :
    getWinningTicket demoHash 31 1000 = some 126 ∧
    5 ^ 3 % 1000 + 1 = 126 ∧
    getPublicKey demoBets 126 = some "B" ∧
    ∃ w ws, getWinners demoHash 1000 demoBets = some (w :: ws) ∧
      w.PublicKey = "B" ∧ w.Ticket = 126 := by
  refine ⟨by decide, by decide, by decide, ?_⟩
  exact ⟨_, _, getWinners_demoHash_1000 demoBets "B" "A" (by decide) (by decide)
    (by decide), rfl, rfl⟩

/-- Loop invariant for `getWinners`: with a valid sorted bet list, a pool in
`[1, 2 ^ 64)`, and enough hash bytes below the cursor, the loop yields one
winner per tier, whose ticket comes from the 2-byte window at `i - 2k` and
whose prize is the rounded tier share. -/
theorem getWinnersLoop_spec (hash : List Nat) (P : Nat) (bets : List Bet)
    (hs : bets.Pairwise fun a b => a.Index < b.Index)
    (hne : bets ≠ []) (hlast : (bets.getLast hne).Index = P)
    (hP : 1 ≤ P) (hP64 : P < 2 ^ 64) :
    ∀ (qs : List ℚ) (i : Int), (2 * qs.length : Int) - 1 ≤ i →
    i < (hash.length : Int) →
    ∃ ws, getWinnersLoop hash P bets qs i = some ws ∧ ws.length = qs.length ∧
      ∀ k (hk : k < ws.length) (hk2 : k < qs.length),
        getWinningTicket hash (i - 2 * k) P = some ((ws.get ⟨k, hk⟩).Ticket) ∧
        (ws.get ⟨k, hk⟩).Prizes = prizeAmount (qs.get ⟨k, hk2⟩) P := by
  intro qs
  induction qs with
  | nil =>
    intro i _ _
    exact ⟨[], rfl, rfl, fun k hk hk2 => absurd hk (by simp)⟩
  | cons q rest ih =>
    intro i hilo hihi
    have hlen : ((q :: rest).length : Int) = rest.length + 1 := by simp
    have h1i : 1 ≤ i := by
      rw [hlen] at hilo
      omega
    obtain ⟨t, ht, ht1, htP⟩ := getWinningTicket_some hash i P h1i hihi hP hP64
    obtain ⟨b, _, hpk⟩ := getPublicKey_finds bets t P hs hne hlast htP
    obtain ⟨ws, hws, hwslen, hwsk⟩ := ih (i - 2)
      (by rw [hlen] at hilo; omega) (by omega)
    refine ⟨⟨b.PublicKey, t, prizeAmount q P, false⟩ :: ws, ?_, by simp [hwslen], ?_⟩
    · simp only [getWinnersLoop]
      rw [ht]
      dsimp only
      rw [hpk]
      dsimp only
      rw [hws]
    · intro k hk hk2
      cases k with
      | zero =>
        constructor
        · have h0 : i - 2 * ((0 : Nat) : Int) = i := by push_cast; ring
          rw [h0]
          exact ht
        · rfl
      | succ k =>
        have hidx : i - 2 * ((k + 1 : Nat) : Int) = (i - 2) - 2 * (k : Nat) := by
          push_cast
          ring
        rw [hidx]
        exact hwsk k (by simpa using hk) (by simpa using hk2)

/-- The winners loop reads the hash only through `getWinningTicket`, at
indices `i, i - 1, i - 2, …`: two hashes agreeing from byte 16 on produce
the same winners when the lowest window stays at or above byte 16. -/
theorem getWinnersLoop_congr (hash1 hash2 : List Nat) (P : Nat) (bets : List Bet) :
    ∀ (qs : List ℚ) (i : Int),
    (∀ j : Nat, 16 ≤ j → hash1.get? j = hash2.get? j) →
    (2 * qs.length : Int) + 15 ≤ i →
    getWinnersLoop hash1 P bets qs i = getWinnersLoop hash2 P bets qs i := by
  intro qs
  induction qs with
  | nil =>
    intro i _ _
    rfl
  | cons q rest ih =>
    intro i hagree hge
    have hlen : ((q :: rest).length : Int) = rest.length + 1 := by simp
    have h17 : 17 ≤ i := by
      rw [hlen] at hge
      have h0 : (0 : Int) ≤ rest.length := by positivity
      omega
    simp only [getWinnersLoop]
    rw [getWinningTicket_congr hash1 hash2 i P hagree h17,
      ih (i - 2) hagree (by rw [hlen] at hge; omega)]

/-- C7: for every valid non-empty bet list (sorted, partitioning `[1, P]`)
and 32-byte hash, `getWinners` yields exactly 8 winners; tier `k` (0-based,
tiers in strictly descending prize share) draws its ticket from the 2-byte
window at hash indices `31 - 2k` and `30 - 2k`, so the windows consume the
hash from its tail and the first 16 bytes are never read (hashes agreeing
from byte 16 on give identical winners); a single participant can appear in
several of the 8 winner records. -/
theorem claim_C7_eight_winners (hash : List Nat) (P : Nat) (bets : List Bet)
    (hs : bets.Pairwise fun a b => a.Index < b.Index)
    (hne : bets ≠ []) (hlast : (bets.getLast hne).Index = P)
    (hP : 1 ≤ P) (hP64 : P < 2 ^ 64) (hlen32 : hash.length = 32) :
    ∃ ws, getWinners hash P bets = some ws ∧ ws.length = 8 ∧
      (∀ k (hk : k < ws.length) (hk2 : k < prizes.length),
        getWinningTicket hash (31 - 2 * (k : Int)) P = some ((ws.get ⟨k, hk⟩).Ticket) ∧
        (ws.get ⟨k, hk⟩).Prizes = prizeAmount (prizes.get ⟨k, hk2⟩) P) ∧
      (∀ hash2, hash2.length = 32 →
        (∀ j : Nat, 16 ≤ j → hash.get? j = hash2.get? j) →
        getWinners hash2 P bets = some ws) ∧
      prizes.Pairwise (fun a b => b < a) ∧
      (∃ ws2, getWinners demoHash 1000 [⟨"X", 1000⟩] = some ws2 ∧ ws2.length = 8 ∧
        ∀ w ∈ ws2, w.PublicKey = "X") := by
  have hne0 : ¬ (bets.length = 0) := by simpa [List.length_eq_zero] using hne
  have hpl : prizes.length = 8 := by norm_num [prizes]
  obtain ⟨ws, hws, hwslen, hwsk⟩ := getWinnersLoop_spec hash P bets hs hne hlast hP hP64
    prizes ((hash.length : Int) - 1) (by rw [hpl, hlen32]; norm_num) (by omega)
  refine ⟨ws, ?_, by rw [hwslen, hpl], ?_, ?_, ?_, ?_⟩
  · unfold getWinners
    rw [if_neg hne0]
    exact hws
  · intro k hk hk2
    have h31 : (31 : Int) - 2 * (k : Int) = ((hash.length : Int) - 1) - 2 * (k : Int) := by
      rw [hlen32]
      norm_num
    rw [h31]
    exact hwsk k hk hk2
  · intro hash2 hlen2 hagree
    unfold getWinners
    rw [if_neg hne0]
    have hsame : ((hash2.length : Int) - 1) = ((hash.length : Int) - 1) := by
      rw [hlen2, hlen32]
    rw [hsame,
      ← getWinnersLoop_congr hash hash2 P bets prizes ((hash.length : Int) - 1) hagree
        (by rw [hpl, hlen32]; norm_num)]
    exact hws
  · norm_num [prizes, first, second, third, fourth, fifth, sixth, seventh, eighth,
      List.pairwise_cons]
  · exact ⟨_, getWinners_demoHash_1000 [⟨"X", 1000⟩] "X" "X" (by decide) (by decide)
      (by decide), by decide, by decide⟩

/-- Witness for C7 on the worked example: pool 1000, `demoHash`, bets
`[("A", 50), ("B", 150), ("C", 1000)]`. -/
theorem claim_C7_eight_winners_witness :
    ∃ ws, getWinners demoHash 1000 demoBets = some ws ∧ ws.length = 8 ∧
      (∀ k (hk : k < ws.length) (hk2 : k < prizes.length),
        getWinningTicket demoHash (31 - 2 * (k : Int)) 1000 =
          some ((ws.get ⟨k, hk⟩).Ticket) ∧
        (ws.get ⟨k, hk⟩).Prizes = prizeAmount (prizes.get ⟨k, hk2⟩) 1000) ∧
      (∀ hash2, hash2.length = 32 →
        (∀ j : Nat, 16 ≤ j → demoHash.get? j = hash2.get? j) →
        getWinners hash2 1000 demoBets = some ws) ∧
      prizes.Pairwise (fun a b => b < a) ∧
      (∃ ws2, getWinners demoHash 1000 [⟨"X", 1000⟩] = some ws2 ∧ ws2.length = 8 ∧
        ∀ w ∈ ws2, w.PublicKey = "X") :=
  claim_C7_eight_winners demoHash 1000 demoBets (by decide) (by decide) (by decide)
    (by norm_num) (by norm_num) (by decide)

/-- C6: an empty bet list at draw time makes `raffle` return without error
and without side effects — no bets cleared, no winners persisted, nothing
sent on the winners channel, no notifications, no expiry — while the watcher
still advances and persists the target. -/
theorem claim_C6_empty_bets (height : Nat) (hash : List Nat) (P : Nat)
    (chats : String → Option Nat) (D T : Nat) (err : Bool) :
    raffle height hash [] P chats D =
      { err := false, betsCleared := false, persistedWinners := none, sentBatch := none,
        notificationsSent := [], prizesExpiredBefore := none,
        notificationsExpired := false } ∧
    (watcherStep T D T err).nextHeight = (T + D) % 2 ^ 32 ∧
    (watcherStep T D T err).persisted = some ((T + D) % 2 ^ 32) := by
  refine ⟨rfl, ?_, ?_⟩ <;>
  · unfold watcherStep
    rw [if_neg (by simp)]

/-! ### Notification aggregation -/

theorem totalPrizes_nil (pk : String) : totalPrizes [] pk = 0 := rfl

theorem totalPrizes_cons (w : Winner) (ws : List Winner) (pk : String) :
    totalPrizes (w :: ws) pk =
      (if w.PublicKey = pk then w.Prizes else 0) + totalPrizes ws pk := by
  unfold totalPrizes
  rw [List.filter_cons]
  by_cases h : w.PublicKey = pk
  · simp [h]
  · simp [h]

theorem entryAmount_cons (k0 : String) (v0 : Nat) (rest : List (String × Nat))
    (pk : String) :
    entryAmount ((k0, v0) :: rest) pk =
      (if k0 = pk then v0 else 0) + entryAmount rest pk := by
  unfold entryAmount
  rw [List.filter_cons]
  by_cases h : k0 = pk
  · simp [h]
  · simp [h]

/-- `addPrize` adds the amount to exactly the entry of its key. -/
theorem entryAmount_addPrize (acc : List (String × Nat)) (k : String) (v : Nat)
    (pk : String) :
    entryAmount (addPrize acc k v) pk =
      entryAmount acc pk + (if k = pk then v else 0) := by
  induction acc with
  | nil =>
    unfold addPrize
    rw [entryAmount_cons]
    unfold entryAmount
    simp
  | cons e rest ih =>
    obtain ⟨k0, v0⟩ := e
    unfold addPrize
    by_cases h0 : k0 = k
    · rw [if_pos h0, entryAmount_cons, entryAmount_cons]
      subst h0
      by_cases h1 : k0 = pk
      · simp [h1]
        omega
      · simp [h1]
    · rw [if_neg h0, entryAmount_cons, entryAmount_cons, ih]
      omega

theorem mem_keys_addPrize (acc : List (String × Nat)) (k : String) (v : Nat)
    (pk : String) :
    pk ∈ (addPrize acc k v).map Prod.fst ↔ pk ∈ acc.map Prod.fst ∨ pk = k := by
  induction acc with
  | nil =>
    unfold addPrize
    simp
  | cons e rest ih =>
    obtain ⟨k0, v0⟩ := e
    unfold addPrize
    by_cases h0 : k0 = k
    · subst h0
      rw [if_pos rfl]
      simp only [List.map_cons, List.mem_cons]
      tauto
    · rw [if_neg h0]
      simp only [List.map_cons, List.mem_cons, ih]
      tauto

theorem nodup_keys_addPrize (acc : List (String × Nat)) (k : String) (v : Nat)
    (h : (acc.map Prod.fst).Nodup) :
    ((addPrize acc k v).map Prod.fst).Nodup := by
  induction acc with
  | nil =>
    unfold addPrize
    simp
  | cons e rest ih =>
    obtain ⟨k0, v0⟩ := e
    simp only [List.map_cons, List.nodup_cons] at h
    unfold addPrize
    by_cases h0 : k0 = k
    · rw [if_pos h0]
      simp only [List.map_cons, List.nodup_cons]
      exact h
    · rw [if_neg h0]
      simp only [List.map_cons, List.nodup_cons]
      refine ⟨?_, ih h.2⟩
      rw [mem_keys_addPrize]
      rintro (hmem | hmem)
      · exact h.1 hmem
      · exact h0 hmem

theorem entryAmount_foldl (ws : List Winner) :
    ∀ (acc : List (String × Nat)) (pk : String),
    entryAmount (ws.foldl (fun a w => addPrize a w.PublicKey w.Prizes) acc) pk =
      entryAmount acc pk + totalPrizes ws pk := by
  induction ws with
  | nil =>
    intro acc pk
    rw [totalPrizes_nil]
    rfl
  | cons w rest ih =>
    intro acc pk
    rw [List.foldl_cons, ih, entryAmount_addPrize, totalPrizes_cons]
    omega

theorem mem_keys_foldl (ws : List Winner) :
    ∀ (acc : List (String × Nat)) (pk : String),
    pk ∈ ((ws.foldl (fun a w => addPrize a w.PublicKey w.Prizes) acc)).map Prod.fst ↔
      pk ∈ acc.map Prod.fst ∨ ∃ w ∈ ws, w.PublicKey = pk := by
  induction ws with
  | nil =>
    intro acc pk
    simp
  | cons w rest ih =>
    intro acc pk
    rw [List.foldl_cons, ih, mem_keys_addPrize]
    simp only [List.mem_cons]
    constructor
    · rintro ((h | h) | ⟨w2, hw2, hpk⟩)
      · exact Or.inl h
      · exact Or.inr ⟨w, Or.inl rfl, h.symm⟩
      · exact Or.inr ⟨w2, Or.inr hw2, hpk⟩
    · rintro (h | ⟨w2, (hw2 | hw2), hpk⟩)
      · exact Or.inl (Or.inl h)
      · subst hw2
        exact Or.inl (Or.inr hpk.symm)
      · exact Or.inr ⟨w2, hw2, hpk⟩

theorem nodup_keys_foldl (ws : List Winner) :
    ∀ (acc : List (String × Nat)), (acc.map Prod.fst).Nodup →
    (((ws.foldl (fun a w => addPrize a w.PublicKey w.Prizes) acc)).map Prod.fst).Nodup := by
  induction ws with
  | nil =>
    intro acc h
    exact h
  | cons w rest ih =>
    intro acc h
    rw [List.foldl_cons]
    exact ih _ (nodup_keys_addPrize acc w.PublicKey w.Prizes h)

/-- The aggregated map records, per participant, the sum of their prizes. -/
theorem agg_entryAmount (ws : List Winner) (pk : String) :
    entryAmount (aggregatePrizes ws) pk = totalPrizes ws pk := by
  unfold aggregatePrizes
  rw [entryAmount_foldl]
  simp [entryAmount]

/-- The aggregated map holds each participant at most once. -/
theorem agg_keys_nodup (ws : List Winner) :
    ((aggregatePrizes ws).map Prod.fst).Nodup :=
  nodup_keys_foldl ws [] (by simp)

/-- The aggregated map holds exactly the participants that appear among the
winners. -/
theorem agg_mem_keys (ws : List Winner) (pk : String) :
    pk ∈ (aggregatePrizes ws).map Prod.fst ↔ ∃ w ∈ ws, w.PublicKey = pk := by
  unfold aggregatePrizes
  rw [mem_keys_foldl]
  simp

theorem entryAmount_eq_zero_of_not_mem (l : List (String × Nat)) (pk : String)
    (h : pk ∉ l.map Prod.fst) : entryAmount l pk = 0 := by
  induction l with
  | nil => rfl
  | cons e rest ih =>
    obtain ⟨k0, v0⟩ := e
    simp only [List.map_cons, List.mem_cons] at h
    push_neg at h
    rw [entryAmount_cons, if_neg (Ne.symm h.1), ih h.2]

theorem entry_eq_of_mem (l : List (String × Nat))
    (hnd : (l.map Prod.fst).Nodup) :
    ∀ e ∈ l, e.2 = entryAmount l e.1 := by
  induction l with
  | nil =>
    intro e he
    simp at he
  | cons a rest ih =>
    simp only [List.map_cons, List.nodup_cons] at hnd
    intro e he
    rcases List.mem_cons.mp he with he2 | he2
    · subst he2
      obtain ⟨k0, v0⟩ := e
      rw [entryAmount_cons, if_pos rfl,
        entryAmount_eq_zero_of_not_mem rest k0 hnd.1]
      simp
    · obtain ⟨k0, v0⟩ := a
      have hne : k0 ≠ e.1 := by
        intro hcon
        exact hnd.1 (hcon ▸ List.mem_map.mpr ⟨e, he2, rfl⟩)
      rw [entryAmount_cons, if_neg hne, ← ih hnd.2 e he2]
      simp

/-- The participant of every notification appears as a key of the source
association list. -/
theorem mem_pub_of_mem_notify (l : List (String × Nat)) (chats : String → Option Nat)
    (pk : String)
    (h : pk ∈ ((l.filterMap fun e => (chats e.1).map fun cid =>
      (⟨e.1, cid, e.2⟩ : Notification)).map Notification.publicKey)) :
    pk ∈ l.map Prod.fst := by
  obtain ⟨n, hn, hpk⟩ := List.mem_map.mp h
  obtain ⟨e, he, hfe⟩ := List.mem_filterMap.mp hn
  obtain ⟨cid, hcid, hne⟩ := Option.map_eq_some'.mp hfe
  refine List.mem_map.mpr ⟨e, he, ?_⟩
  rw [← hpk, ← hne]

theorem nodup_pub_filterMap (chats : String → Option Nat) :
    ∀ (l : List (String × Nat)), (l.map Prod.fst).Nodup →
    ((l.filterMap fun e => (chats e.1).map fun cid =>
      (⟨e.1, cid, e.2⟩ : Notification)).map Notification.publicKey).Nodup := by
  intro l
  induction l with
  | nil =>
    intro _
    simp
  | cons a rest ih =>
    intro hnd
    simp only [List.map_cons, List.nodup_cons] at hnd
    rw [List.filterMap_cons]
    rcases hch : chats a.1 with _ | cid
    · simp only [hch, Option.map_none']
      exact ih hnd.2
    · simp only [hch, Option.map_some']
      simp only [List.map_cons, List.nodup_cons]
      refine ⟨?_, ih hnd.2⟩
      intro hcon
      exact hnd.1 (mem_pub_of_mem_notify rest chats a.1 hcon)

theorem length_filter_le_one {β : Type} (f : β → String) :
    ∀ (l : List β), (l.map f).Nodup → ∀ pk,
    (l.filter fun x => decide (f x = pk)).length ≤ 1 := by
  intro l
  induction l with
  | nil =>
    intro _ pk
    simp
  | cons a rest ih =>
    intro hnd pk
    simp only [List.map_cons, List.nodup_cons] at hnd
    rw [List.filter_cons]
    by_cases h : f a = pk
    · rw [if_pos (by simp [h])]
      have hnil : rest.filter (fun x => decide (f x = pk)) = [] := by
        rw [List.filter_eq_nil]
        intro x hx
        simp only [decide_eq_true_eq]
        intro hcon
        exact hnd.1 (List.mem_map.mpr ⟨x, hx, hcon.trans h.symm⟩)
      simp [hnil]
    · rw [if_neg (by simp [h])]
      exact ih hnd.2 pk

/-- C8: `notifyWinners` sends at most one message per unique participant; each
message carries the sum of that participant's prizes across all the winner
records; a participant with no registered chat ID produces no message (and no
error); and every winning participant with a chat ID receives exactly one
message with the summed amount. -/
theorem claim_C8_aggregated_notifications (winners : List Winner)
    (chats : String → Option Nat) :
    (∀ pk, ((notifyWinners winners chats).filter
        fun n => decide (n.publicKey = pk)).length ≤ 1) ∧
    (∀ n, n ∈ notifyWinners winners chats →
      n.amount = totalPrizes winners n.publicKey ∧
      chats n.publicKey = some n.chatID) ∧
    (∀ pk, chats pk = none →
      ∀ n, n ∈ notifyWinners winners chats → n.publicKey ≠ pk) ∧
    (∀ w, w ∈ winners → ∀ cid, chats w.PublicKey = some cid →
      ∃ n, n ∈ notifyWinners winners chats ∧ n.publicKey = w.PublicKey ∧
        n.chatID = cid ∧ n.amount = totalPrizes winners w.PublicKey) := by
  have hnd := agg_keys_nodup winners
  have hmem : ∀ n, n ∈ notifyWinners winners chats →
      n.amount = totalPrizes winners n.publicKey ∧
      chats n.publicKey = some n.chatID := by
    intro n hn
    simp only [notifyWinners] at hn
    obtain ⟨e, he, hfe⟩ := List.mem_filterMap.mp hn
    obtain ⟨cid, hcid, hne⟩ := Option.map_eq_some'.mp hfe
    have h1 : n.publicKey = e.1 := by rw [← hne]
    have h2 : n.amount = e.2 := by rw [← hne]
    have h3 : n.chatID = cid := by rw [← hne]
    refine ⟨?_, ?_⟩
    · rw [h2, h1, ← agg_entryAmount]
      exact entry_eq_of_mem _ hnd e he
    · rw [h1, h3]
      exact hcid
  refine ⟨?_, hmem, ?_, ?_⟩
  · intro pk
    exact length_filter_le_one Notification.publicKey _
      (nodup_pub_filterMap chats _ hnd) pk
  · intro pk hnone n hn hpk
    have hsome := (hmem n hn).2
    rw [hpk, hnone] at hsome
    exact Option.noConfusion hsome
  · intro w hw cid hcid
    have hk : w.PublicKey ∈ (aggregatePrizes winners).map Prod.fst :=
      (agg_mem_keys winners w.PublicKey).mpr ⟨w, hw, rfl⟩
    obtain ⟨e, he, hepk⟩ := List.mem_map.mp hk
    have hch : chats e.1 = some cid := by
      rw [hepk]
      exact hcid
    refine ⟨⟨e.1, cid, e.2⟩, ?_, hepk, rfl, ?_⟩
    · simp only [notifyWinners]
      exact List.mem_filterMap.mpr ⟨e, he, by rw [hch]; rfl⟩
    · have hev := entry_eq_of_mem _ hnd e he
      rw [← hepk, ← agg_entryAmount]
      exact hev

/-- Witness for C8: participant "A" wins tiers 1 and 3 of the 8 (500 + 125)
and has a chat ID, so one notification with the summed amount 625 exists,
and at most one notification targets "A". -/
theorem claim_C8_aggregated_notifications_witness :
    (∃ n, n ∈ notifyWinners winners0 chats0 ∧ n.publicKey = "A" ∧
      n.chatID = 7 ∧ n.amount = totalPrizes winners0 "A") ∧
    ((notifyWinners winners0 chats0).filter
      (fun n => decide (n.publicKey = "A"))).length ≤ 1 ∧
    totalPrizes winners0 "A" = 625 :=
  ⟨(claim_C8_aggregated_notifications winners0 chats0).2.2.2
      ⟨"A", 126, 500, false⟩ (by decide) 7 (by decide),
   (claim_C8_aggregated_notifications winners0 chats0).1 "A",
   by decide⟩

end Lottery
